import Mathlib

/-!
Shallow embedding of the LTTB downsampling module (`lttbSample` and its two
index helpers `lttbIndicesForInterleavedXY` / `lttbIndicesForDataPoints`).

Numeric values are modelled as rationals; `targetPoints` reaches the index
helpers as the already-floored integer that `lttbSample` computes with
`Math.floor`.  The interleaved `Float32Array` is a flat list of rationals of
length `2N`; the point-array input is a list of `DataPoint` values, each a
positional tuple or a named-field record.  Out-of-range reads use `List.getD`
with a zero default; the code never performs such reads on its reachable
paths.  A separate model with IEEE-754 comparison semantics (`EF`,
`selectWinnerEF`) covers the behaviour of the candidate loop on non-finite
areas.
-/

/-- The `DataPoint` type from `config/types`: a readonly positional pair or
a named-field record with x and y. -/
inductive DataPoint where
  | tuple (fst snd : ℚ)
  | record (x y : ℚ)
deriving DecidableEq

/-- The predicate `isTupleDataPoint`, i.e. `Array.isArray(point)`. -/
def isTupleDataPoint : DataPoint → Bool
  | .tuple _ _ => true
  | .record _ _ => false

/-- The read `isTupleDataPoint(p) ? p[0] : p.x`. -/
def pointX : DataPoint → ℚ
  | .tuple v _ => v
  | .record v _ => v

/-- The read `isTupleDataPoint(p) ? p[1] : p.y`. -/
def pointY : DataPoint → ℚ
  | .tuple _ v => v
  | .record _ v => v

/-- The real-valued bucket width `bucketSize = (n - 2) / (targetPoints - 2)`. -/
def bucketSizeQ (n tp : ℕ) : ℚ := ((n : ℚ) - 2) / ((tp : ℚ) - 2)

/-- The value `Math.floor(bucketSize * bucket) + 1`, the start of bucket
`bucket`'s candidate range (also the start of the preceding bucket's
lookahead range). -/
def rsNat (n tp bucket : ℕ) : ℕ := (⌊bucketSizeQ n tp * (bucket : ℚ)⌋).toNat + 1

/-- Candidate range `[rangeStart, rangeEndExclusive)` of a bucket, including
the defensive guard that forces at least one candidate when the computed
range is empty (`rangeStart = min(rangeStart, lastIndex - 1)`,
`rangeEndExclusive = min(rangeStart + 1, lastIndex)`). -/
def currentRange (n tp bucket : ℕ) : ℕ × ℕ :=
  let rangeStart := rsNat n tp bucket
  let rangeEndExclusive := min (rsNat n tp (bucket + 1)) (n - 1)
  if rangeEndExclusive ≤ rangeStart then
    let rs := min rangeStart (n - 1 - 1)
    (rs, min (rs + 1) (n - 1))
  else
    (rangeStart, rangeEndExclusive)

/-- Lookahead range `[nextRangeStart, nextRangeEndExclusive)` used for the
average point of the next bucket. -/
def nextRange (n tp bucket : ℕ) : ℕ × ℕ :=
  (rsNat n tp (bucket + 1), min (rsNat n tp (bucket + 2)) (n - 1))

/-- Average point over the lookahead range; when the range is empty the
coordinates of the final input point (`lastX`, `lastY`) are used.  The
source's inner `avgCount > 0` test always succeeds because the loop runs
`nextRangeEndExclusive - nextRangeStart > 0` times. -/
def lookaheadAvg (gX gY : ℕ → ℚ) (n tp bucket : ℕ) : ℚ × ℚ :=
  let s := (nextRange n tp bucket).1
  let e := (nextRange n tp bucket).2
  if s < e then
    (((List.range' s (e - s)).map gX).sum / ((e - s : ℕ) : ℚ),
     ((List.range' s (e - s)).map gY).sum / ((e - s : ℕ) : ℚ))
  else
    (gX (n - 1), gY (n - 1))

/-- The doubled signed triangle area
`area2 = (ax - avgX) * (by - ay) - (ax - bx) * (avgY - ay)`. -/
def area2 (ax ay avgX avgY bx yb : ℚ) : ℚ :=
  (ax - avgX) * (yb - ay) - (ax - bx) * (avgY - ay)

/-- The candidate loop: running maximum of `absArea2` started at `-1`,
winner index started at `rangeStart`, updated only on strict `>`. -/
def selectWinner (gX gY : ℕ → ℚ) (ax ay avgX avgY : ℚ) (rs re : ℕ) : ℕ :=
  ((List.range' rs (re - rs)).foldl
    (fun acc i =>
      let a2 := area2 ax ay avgX avgY (gX i) (gY i)
      let absA2 := if a2 < 0 then -a2 else a2
      if acc.1 < absA2 then (absA2, i) else acc)
    ((-1 : ℚ), rs)).2

/-- One bucket body: compute the candidate range, the lookahead average and
the winning candidate against the anchor `a`. -/
def bucketWinner (gX gY : ℕ → ℚ) (n tp a bucket : ℕ) : ℕ :=
  let rs := (currentRange n tp bucket).1
  let re := (currentRange n tp bucket).2
  let avg := lookaheadAvg gX gY n tp bucket
  selectWinner gX gY (gX a) (gY a) avg.1 avg.2 rs re

/-- The bucket loop: `remaining` buckets left, current anchor `a`, current
bucket number `bucket`; each winner is emitted and becomes the next anchor. -/
def lttbLoopAux (gX gY : ℕ → ℚ) (n tp : ℕ) : ℕ → ℕ → ℕ → List ℕ
  | _, _, 0 => []
  | a, bucket, r + 1 =>
    let w := bucketWinner gX gY n tp a bucket
    w :: lttbLoopAux gX gY n tp w (bucket + 1) r

/-- The shared index computation of `lttbIndicesForInterleavedXY` and
`lttbIndicesForDataPoints` (the two sources are textually identical up to the
point accessor): degenerate-size guards, then
`[0] ++ bucket winners ++ [lastIndex]`. -/
def lttbIndicesCore (gX gY : ℕ → ℚ) (n : ℕ) (targetPoints : ℤ) : List ℕ :=
  if targetPoints ≤ 0 ∨ n = 0 then []
  else if targetPoints = 1 then [0]
  else if targetPoints = 2 then (if 2 ≤ n then [0, n - 1] else [0])
  else if (n : ℤ) ≤ targetPoints then List.range n
  else
    let tp := targetPoints.toNat
    0 :: (lttbLoopAux gX gY n tp 0 0 (tp - 2) ++ [n - 1])

/-- The adapter `lttbIndicesForInterleavedXY`: `n = data.length >>> 1`,
`x(i) = data[i*2]`, `y(i) = data[i*2+1]`. -/
def lttbIndicesForInterleavedXY (data : List ℚ) (targetPoints : ℤ) : List ℕ :=
  lttbIndicesCore (fun i => data.getD (i * 2) 0) (fun i => data.getD (i * 2 + 1) 0)
    (data.length / 2) targetPoints

/-- The adapter `lttbIndicesForDataPoints`: `n = data.length`, coordinates
read through `isTupleDataPoint`. -/
def lttbIndicesForDataPoints (data : List DataPoint) (targetPoints : ℤ) : List ℕ :=
  lttbIndicesCore (fun i => pointX (data.getD i (.tuple 0 0)))
    (fun i => pointY (data.getD i (.tuple 0 0))) data.length targetPoints

/-- The two physical input (and output) families of `lttbSample`. -/
inductive SampleInput where
  | interleaved (data : List ℚ)
  | points (data : List DataPoint)
deriving DecidableEq

/-- The entry point `lttbSample`: floors `targetCount`, re-checks the empty
and passthrough guards per representation (returning the original sequence unchanged when
`n ≤ threshold`), otherwise materializes the selected indices in the input's
representation. -/
def lttbSample (input : SampleInput) (targetCount : ℚ) : SampleInput :=
  let threshold : ℤ := ⌊targetCount⌋
  match input with
  | .interleaved data =>
    let n := data.length / 2
    if threshold ≤ 0 ∨ n = 0 then .interleaved []
    else if (n : ℤ) ≤ threshold then .interleaved data
    else
      let indices := lttbIndicesForInterleavedXY data threshold
      .interleaved (indices.flatMap fun idx => [data.getD (idx * 2) 0, data.getD (idx * 2 + 1) 0])
  | .points data =>
    let n := data.length
    if threshold ≤ 0 ∨ n = 0 then .points []
    else if (n : ℤ) ≤ threshold then .points data
    else
      let indices := lttbIndicesForDataPoints data threshold
      .points (indices.map fun idx => data.getD idx (.tuple 0 0))

/-- Number of logical points held by a value of either representation. -/
def SampleInput.numPoints : SampleInput → ℕ
  | .interleaved data => data.length / 2
  | .points data => data.length

/-- The `(x, y)` coordinates of point `i` of a value of either
representation. -/
def SampleInput.pointAt : SampleInput → ℕ → ℚ × ℚ
  | .interleaved data, i => (data.getD (i * 2) 0, data.getD (i * 2 + 1) 0)
  | .points data, i =>
    (pointX (data.getD i (.tuple 0 0)), pointY (data.getD i (.tuple 0 0)))

/-- Non-decreasing x coordinates over the points of a value. -/
def xNonDec (input : SampleInput) : Prop :=
  ∀ j < input.numPoints, ∀ i ≤ j, (input.pointAt i).1 ≤ (input.pointAt j).1

/-- The results of the four degenerate-size guards, with no bucket math. -/
def degenerateResult (n : ℕ) (targetPoints : ℤ) : List ℕ :=
  if targetPoints ≤ 0 ∨ n = 0 then []
  else if targetPoints = 1 then [0]
  else if targetPoints = 2 then (if 2 ≤ n then [0, n - 1] else [0])
  else List.range n

/-- IEEE-754 double values as seen by the candidate loop's comparisons:
NaN, finite, or a signed infinity. -/
inductive EF where
  | nan
  | val (q : ℚ)
  | inf
  | ninf
deriving DecidableEq

/-- IEEE-754 `<`: every comparison with NaN is false. -/
def EF.lt : EF → EF → Bool
  | .nan, _ => false
  | _, .nan => false
  | .ninf, .ninf => false
  | .ninf, _ => true
  | _, .ninf => false
  | .inf, _ => false
  | .val _, .inf => true
  | .val a, .val b => decide (a < b)

/-- IEEE-754 negation. -/
def EF.neg : EF → EF
  | .nan => .nan
  | .val q => .val (-q)
  | .inf => .ninf
  | .ninf => .inf

/-- A value is non-finite when it is NaN or an infinity. -/
def EF.nonFinite (a : EF) : Prop := a = .nan ∨ a = .inf ∨ a = .ninf

/-- The candidate loop of `selectWinner` under IEEE-754 comparison
semantics, with the computed `area2` of candidate `i` abstracted as
`area i`: `absArea2 = area2 < 0 ? -area2 : area2`, running maximum started
at `-1`, updated only when `absArea2 > maxArea`. -/
def selectWinnerEF (area : ℕ → EF) (rs re : ℕ) : ℕ :=
  ((List.range' rs (re - rs)).foldl
    (fun acc i =>
      let a2 := area i
      let absA2 := if a2.lt (EF.val 0) then a2.neg else a2
      if acc.1.lt absA2 then (absA2, i) else acc)
    (EF.val (-1), rs)).2

/-! ### List helpers -/

lemma chain'_lt_range' (s k : ℕ) : List.Chain' (· < ·) (List.range' s k) :=
  (List.pairwise_lt_range' s k).chain'

lemma getD_append_last (l : List ℕ) (x d : ℕ) : (l ++ [x]).getD l.length d = x := by
  induction l with
  | nil => rfl
  | cons a t ih => simp [ih]

lemma getD_map_of_lt {α : Type} (g : ℕ → α) (l : List ℕ) (i : ℕ) (d : α)
    (h : i < l.length) : (l.map g).getD i d = g (l.getD i 0) := by
  rw [List.getD_eq_getElem _ _ (by simpa using h), List.getD_eq_getElem _ _ h,
    List.getElem_map]

lemma length_flatMap_pair {α : Type} (f g : α → ℚ) (l : List α) :
    (l.flatMap fun p => [f p, g p]).length = 2 * l.length := by
  induction l with
  | nil => rfl
  | cons a t ih => simp [List.flatMap_cons, ih]; ring

lemma getD_flatMap_pair_fst {α : Type} (f g : α → ℚ) (p0 : α) :
    ∀ (l : List α) (i : ℕ), i < l.length →
      (l.flatMap fun p => [f p, g p]).getD (i * 2) 0 = f (l.getD i p0) := by
  intro l
  induction l with
  | nil => intro i h; simp at h
  | cons a t ih =>
    intro i h
    match i with
    | 0 => rfl
    | i + 1 =>
      have h2 : (i + 1) * 2 = i * 2 + 1 + 1 := by ring
      rw [h2]
      simp only [List.flatMap_cons, List.cons_append, List.nil_append,
        List.getD_cons_succ]
      exact ih i (by simpa using h)

lemma getD_flatMap_pair_snd {α : Type} (f g : α → ℚ) (p0 : α) :
    ∀ (l : List α) (i : ℕ), i < l.length →
      (l.flatMap fun p => [f p, g p]).getD (i * 2 + 1) 0 = g (l.getD i p0) := by
  intro l
  induction l with
  | nil => intro i h; simp at h
  | cons a t ih =>
    intro i h
    match i with
    | 0 => rfl
    | i + 1 =>
      have h2 : (i + 1) * 2 + 1 = i * 2 + 1 + 1 + 1 := by ring
      rw [h2]
      simp only [List.flatMap_cons, List.cons_append, List.nil_append,
        List.getD_cons_succ]
      exact ih i (by simpa using h)

lemma sum_map_range' (f : ℕ → ℚ) : ∀ (k s : ℕ),
    ((List.range' s k).map f).sum = ∑ i ∈ Finset.Ico s (s + k), f i := by
  intro k
  induction k with
  | zero => intro s; simp
  | succ k ih =>
    intro s
    rw [List.range'_succ]
    have hb : s < s + (k + 1) := by omega
    rw [Finset.sum_eq_sum_Ico_succ_bot hb]
    have : s + 1 + k = s + (k + 1) := by omega
    simp only [List.map_cons, List.sum_cons, ih (s + 1), this]

lemma sorted_getD_mono {l : List ℕ} (h : List.Chain' (· < ·) l) :
    ∀ i j, i ≤ j → j < l.length → l.getD i 0 ≤ l.getD j 0 := by
  intro i j hij hj
  have hp : List.Pairwise (· < ·) l := List.chain'_iff_pairwise.mp h
  rcases Nat.eq_or_lt_of_le hij with rfl | hlt
  · exact le_refl _
  · have hi : i < l.length := lt_trans (lt_of_lt_of_le hlt (le_refl _)) hj
    rw [List.getD_eq_getElem _ _ hi, List.getD_eq_getElem _ _ hj]
    exact le_of_lt (List.pairwise_iff_get.mp hp ⟨i, hi⟩ ⟨j, hj⟩ hlt)

/-! ### The candidate-selection fold -/

/-- One step of the running-maximum fold, with the candidate's score
abstracted as `f i`. -/
def maxStep (f : ℕ → ℚ) (acc : ℚ × ℕ) (i : ℕ) : ℚ × ℕ :=
  if acc.1 < f i then (f i, i) else acc

/-- The absolute doubled triangle area of candidate `i`. -/
def absArea (gX gY : ℕ → ℚ) (ax ay avgX avgY : ℚ) (i : ℕ) : ℚ :=
  |area2 ax ay avgX avgY (gX i) (gY i)|

lemma if_neg_eq_abs (q : ℚ) : (if q < 0 then -q else q) = |q| := by
  rcases lt_or_ge q 0 with h | h
  · simp [h, abs_of_neg h]
  · simp [not_lt.mpr h, abs_of_nonneg h]

lemma selectWinner_eq_fold (gX gY : ℕ → ℚ) (ax ay avgX avgY : ℚ) (rs re : ℕ) :
    selectWinner gX gY ax ay avgX avgY rs re =
      ((List.range' rs (re - rs)).foldl
        (maxStep (absArea gX gY ax ay avgX avgY)) ((-1 : ℚ), rs)).2 := by
  unfold selectWinner
  congr 1
  apply List.foldl_ext
  intro acc i _
  simp only [maxStep, absArea, if_neg_eq_abs]

/-- Full characterisation of the running-maximum fold: the final score is the
score of the final index, the final index comes from the accumulator or the
list, scores never decrease, every scanned score is dominated, every scanned
index strictly below the winner has a strictly smaller score, and a change of
index forced a strict increase. -/
lemma foldl_maxStep_spec (f : ℕ → ℚ) :
    ∀ (l : List ℕ) (acc : ℚ × ℕ), List.Pairwise (· < ·) l →
      (∀ j ∈ l, acc.2 < j) → acc.1 = f acc.2 →
      (l.foldl (maxStep f) acc).1 = f (l.foldl (maxStep f) acc).2 ∧
      ((l.foldl (maxStep f) acc).2 = acc.2 ∨ (l.foldl (maxStep f) acc).2 ∈ l) ∧
      acc.1 ≤ (l.foldl (maxStep f) acc).1 ∧
      (∀ j ∈ l, f j ≤ (l.foldl (maxStep f) acc).1) ∧
      (∀ j ∈ l, j < (l.foldl (maxStep f) acc).2 → f j < (l.foldl (maxStep f) acc).1) ∧
      ((l.foldl (maxStep f) acc).2 ≠ acc.2 → acc.1 < (l.foldl (maxStep f) acc).1) := by
  intro l
  induction l with
  | nil =>
    intro acc _ _ hacc
    refine ⟨hacc, Or.inl rfl, le_refl _, by simp, by simp, fun h => absurd rfl h⟩
  | cons i t ih =>
    intro acc hpair hmem hacc
    have hpt : List.Pairwise (· < ·) t := (List.pairwise_cons.mp hpair).2
    have hit : ∀ j ∈ t, i < j := (List.pairwise_cons.mp hpair).1
    simp only [List.foldl_cons]
    by_cases hup : acc.1 < f i
    · have hstep : maxStep f acc i = (f i, i) := by simp [maxStep, hup]
      rw [hstep]
      obtain ⟨ra, rb, rc, rd, re', rg⟩ := ih (f i, i) hpt (by simpa using hit) rfl
      refine ⟨ra, ?_, ?_, ?_, ?_, ?_⟩
      · rcases rb with h | h
        · exact Or.inr (by simp [h])
        · exact Or.inr (List.mem_cons_of_mem _ h)
      · exact le_of_lt (lt_of_lt_of_le hup rc)
      · intro j hj
        rcases List.mem_cons.mp hj with rfl | hj
        · exact rc
        · exact rd j hj
      · intro j hj hlt
        rcases List.mem_cons.mp hj with rfl | hj
        · have hne : (t.foldl (maxStep f) (f j, j)).2 ≠ j := by omega
          exact lt_of_le_of_lt (le_refl _) (rg hne)
        · exact re' j hj hlt
      · intro _
        exact lt_of_lt_of_le hup rc
    · have hstep : maxStep f acc i = acc := by simp [maxStep, hup]
      rw [hstep]
      have hle : f i ≤ acc.1 := not_lt.mp hup
      have hmt : ∀ j ∈ t, acc.2 < j :=
        fun j hj => lt_trans (hmem i (List.mem_cons_self i t)) (hit j hj)
      obtain ⟨ra, rb, rc, rd, re', rg⟩ := ih acc hpt hmt hacc
      refine ⟨ra, ?_, rc, ?_, ?_, rg⟩
      · rcases rb with h | h
        · exact Or.inl h
        · exact Or.inr (List.mem_cons_of_mem _ h)
      · intro j hj
        rcases List.mem_cons.mp hj with rfl | hj
        · exact le_trans hle rc
        · exact rd j hj
      · intro j hj hlt
        rcases List.mem_cons.mp hj with rfl | hj
        · have hne : (t.foldl (maxStep f) acc).2 ≠ acc.2 := by
            intro he
            rw [he] at hlt
            exact absurd hlt (not_lt.mpr (le_of_lt (hmem j (List.mem_cons_self j t))))
          exact lt_of_le_of_lt hle (rg hne)
        · exact re' j hj hlt

/-- Specification of the running-maximum fold over `[rs, re)` with a
nonnegative score `f` and initial accumulator `(-1, rs)`: the winner lies in
the range, dominates every candidate, and strictly dominates every earlier
candidate. -/
lemma fold_winner_spec (f : ℕ → ℚ) (hf0 : ∀ i, 0 ≤ f i) {rs re : ℕ} (h : rs < re) :
    rs ≤ ((List.range' rs (re - rs)).foldl (maxStep f) ((-1 : ℚ), rs)).2 ∧
    ((List.range' rs (re - rs)).foldl (maxStep f) ((-1 : ℚ), rs)).2 < re ∧
    (∀ j, rs ≤ j → j < re →
      f j ≤ f (((List.range' rs (re - rs)).foldl (maxStep f) ((-1 : ℚ), rs)).2)) ∧
    (∀ j, rs ≤ j → j < ((List.range' rs (re - rs)).foldl (maxStep f) ((-1 : ℚ), rs)).2 →
      f j < f (((List.range' rs (re - rs)).foldl (maxStep f) ((-1 : ℚ), rs)).2)) := by
  have hk : re - rs - 1 + 1 = re - rs := by omega
  have hsplit : List.range' rs (re - rs) = rs :: List.range' (rs + 1) (re - rs - 1) := by
    rw [← hk, List.range'_succ, hk]
  rw [hsplit]
  simp only [List.foldl_cons]
  have hfirst : maxStep f ((-1 : ℚ), rs) rs = (f rs, rs) := by
    have hlt : (-1 : ℚ) < f rs := lt_of_lt_of_le (by norm_num) (hf0 rs)
    simp [maxStep, hlt]
  rw [hfirst]
  have hmemt : ∀ j ∈ List.range' (rs + 1) (re - rs - 1), ((f rs, rs) : ℚ × ℕ).2 < j := by
    intro j hj
    exact lt_of_lt_of_le (Nat.lt_succ_self rs) (List.mem_range'_1.mp hj).1
  obtain ⟨ra, rb, rc, rd, re', rg⟩ :=
    foldl_maxStep_spec f (List.range' (rs + 1) (re - rs - 1)) (f rs, rs)
      (List.pairwise_lt_range' _ _) hmemt rfl
  revert ra rb rc rd re' rg
  generalize List.foldl (maxStep f) (f rs, rs) (List.range' (rs + 1) (re - rs - 1)) = R
  intro ra rb rc rd re' rg
  have hmem : rs ≤ R.2 ∧ R.2 < re := by
    rcases rb with hb | hb
    · rw [hb]; exact ⟨le_refl _, h⟩
    · have := List.mem_range'_1.mp hb
      omega
  refine ⟨hmem.1, hmem.2, ?_, ?_⟩
  · intro j hj1 hj2
    rw [← ra]
    rcases Nat.eq_or_lt_of_le hj1 with rfl | hlt
    · exact rc
    · exact rd j (List.mem_range'_1.mpr ⟨hlt, by omega⟩)
  · intro j hj1 hj2
    rw [← ra]
    rcases Nat.eq_or_lt_of_le hj1 with rfl | hlt
    · exact rg (by omega)
    · exact re' j (List.mem_range'_1.mpr ⟨hlt, by omega⟩) hj2

/-- The winner of a nonempty candidate range lies in the range, its score
dominates every candidate, and it strictly dominates every earlier
candidate (first-seen maximum under the strict `>` update). -/
lemma selectWinner_spec (gX gY : ℕ → ℚ) (ax ay avgX avgY : ℚ) {rs re : ℕ}
    (h : rs < re) :
    rs ≤ selectWinner gX gY ax ay avgX avgY rs re ∧
    selectWinner gX gY ax ay avgX avgY rs re < re ∧
    (∀ j, rs ≤ j → j < re →
      absArea gX gY ax ay avgX avgY j ≤
        absArea gX gY ax ay avgX avgY (selectWinner gX gY ax ay avgX avgY rs re)) ∧
    (∀ j, rs ≤ j → j < selectWinner gX gY ax ay avgX avgY rs re →
      absArea gX gY ax ay avgX avgY j <
        absArea gX gY ax ay avgX avgY (selectWinner gX gY ax ay avgX avgY rs re)) := by
  rw [selectWinner_eq_fold]
  exact fold_winner_spec (absArea gX gY ax ay avgX avgY) (fun i => abs_nonneg _) h

/-! ### Bucket geometry under the precondition `3 ≤ targetPoints < n` -/

section BucketGeometry

variable {n tp : ℕ} (h3 : 3 ≤ tp) (hn : tp < n)

include h3 hn in
lemma one_le_bucketSizeQ : 1 ≤ bucketSizeQ n tp := by
  unfold bucketSizeQ
  have h2 : (0 : ℚ) < (tp : ℚ) - 2 := by
    have : (3 : ℚ) ≤ (tp : ℚ) := by exact_mod_cast h3
    linarith
  rw [one_le_div h2]
  have : (tp : ℚ) < (n : ℚ) := by exact_mod_cast hn
  linarith

include h3 hn in
lemma floor_bs_mul_nonneg (b : ℕ) : 0 ≤ ⌊bucketSizeQ n tp * (b : ℚ)⌋ := by
  rw [Int.floor_nonneg]
  exact mul_nonneg (le_trans (by norm_num) (one_le_bucketSizeQ h3 hn)) (by positivity)

include h3 hn in
lemma rsNat_cast (b : ℕ) :
    (rsNat n tp b : ℤ) = ⌊bucketSizeQ n tp * (b : ℚ)⌋ + 1 := by
  unfold rsNat
  push_cast [Int.toNat_of_nonneg (floor_bs_mul_nonneg h3 hn b)]
  ring

include h3 hn in
lemma rsNat_lt_succ (b : ℕ) : rsNat n tp b < rsNat n tp (b + 1) := by
  have hfl : ⌊bucketSizeQ n tp * (b : ℚ)⌋ + 1 ≤ ⌊bucketSizeQ n tp * ((b : ℚ) + 1)⌋ := by
    rw [← Int.floor_add_one]
    apply Int.floor_le_floor
    have h1 : 1 ≤ bucketSizeQ n tp := one_le_bucketSizeQ h3 hn
    have : bucketSizeQ n tp * ((b : ℚ) + 1) = bucketSizeQ n tp * (b : ℚ) + bucketSizeQ n tp := by
      ring
    linarith [this]
  have hc : ((b + 1 : ℕ) : ℚ) = (b : ℚ) + 1 := by push_cast; ring
  have := rsNat_cast h3 hn b
  have h2 := rsNat_cast h3 hn (b + 1)
  rw [hc] at h2
  omega

include h3 hn in
lemma rsNat_le_of_lt {b : ℕ} (hb : b < tp - 2) : rsNat n tp b ≤ n - 2 := by
  have htp2 : (0 : ℚ) < (tp : ℚ) - 2 := by
    have : (3 : ℚ) ≤ (tp : ℚ) := by exact_mod_cast h3
    linarith
  have hbq : (b : ℚ) < (tp : ℚ) - 2 := by
    have : b + 2 < tp := by omega
    have h' : ((b + 2 : ℕ) : ℚ) < (tp : ℚ) := by exact_mod_cast this
    push_cast at h'
    linarith
  have hbs : (0 : ℚ) < bucketSizeQ n tp :=
    lt_of_lt_of_le (by norm_num) (one_le_bucketSizeQ h3 hn)
  have hmul : bucketSizeQ n tp * (b : ℚ) < bucketSizeQ n tp * ((tp : ℚ) - 2) :=
    mul_lt_mul_of_pos_left hbq hbs
  have hcancel : bucketSizeQ n tp * ((tp : ℚ) - 2) = (n : ℚ) - 2 := by
    unfold bucketSizeQ
    field_simp
  have hflt : ⌊bucketSizeQ n tp * (b : ℚ)⌋ < (n : ℤ) - 2 := by
    rw [Int.floor_lt]
    push_cast
    linarith [hmul, hcancel]
  have := rsNat_cast h3 hn b
  omega

include h3 hn in
lemma rsNat_top : rsNat n tp (tp - 2) = n - 1 := by
  have htp2 : ((tp - 2 : ℕ) : ℚ) = (tp : ℚ) - 2 := by
    push_cast [Nat.cast_sub (by omega : 2 ≤ tp)]
    ring
  have hcancel : bucketSizeQ n tp * ((tp : ℚ) - 2) = (n : ℚ) - 2 := by
    unfold bucketSizeQ
    have : (tp : ℚ) - 2 ≠ 0 := by
      have : (3 : ℚ) ≤ (tp : ℚ) := by exact_mod_cast h3
      intro h
      linarith
    field_simp
  have hint : ((n : ℚ) - 2) = (((n : ℤ) - 2 : ℤ) : ℚ) := by push_cast; ring
  have hfl : ⌊bucketSizeQ n tp * ((tp - 2 : ℕ) : ℚ)⌋ = (n : ℤ) - 2 := by
    rw [htp2, hcancel, hint, Int.floor_intCast]
  unfold rsNat
  rw [hfl]
  omega

include h3 hn in
lemma currentRange_eq {b : ℕ} (hb : b < tp - 2) :
    currentRange n tp b = (rsNat n tp b, min (rsNat n tp (b + 1)) (n - 1)) ∧
    rsNat n tp b < min (rsNat n tp (b + 1)) (n - 1) := by
  have h1 : rsNat n tp b < rsNat n tp (b + 1) := rsNat_lt_succ h3 hn b
  have h2 : rsNat n tp b ≤ n - 2 := rsNat_le_of_lt h3 hn hb
  have h3' : rsNat n tp b < n - 1 := by omega
  have hlt : rsNat n tp b < min (rsNat n tp (b + 1)) (n - 1) := lt_min h1 h3'
  constructor
  · unfold currentRange
    simp only
    rw [if_neg (by omega)]
  · exact hlt

end BucketGeometry

/-! ### The bucket loop -/

lemma lttbLoopAux_length (gX gY : ℕ → ℚ) (n tp : ℕ) :
    ∀ (r a b : ℕ), (lttbLoopAux gX gY n tp a b r).length = r := by
  intro r
  induction r with
  | zero => intro a b; rfl
  | succ r ih => intro a b; simp [lttbLoopAux, ih]

section LoopChain

variable {n tp : ℕ} (gX gY : ℕ → ℚ) (h3 : 3 ≤ tp) (hn : tp < n)

include h3 hn in
/-- Each bucket winner lies in `[rsNat bucket, min (rsNat (bucket+1)) (n-1))`
when the bucket is one of the `tp - 2` real buckets. -/
lemma bucketWinner_bounds {b : ℕ} (hb : b < tp - 2) (a : ℕ) :
    rsNat n tp b ≤ bucketWinner gX gY n tp a b ∧
    bucketWinner gX gY n tp a b < min (rsNat n tp (b + 1)) (n - 1) := by
  obtain ⟨hcr, hlt⟩ := currentRange_eq h3 hn hb
  unfold bucketWinner
  rw [hcr]
  obtain ⟨w1, w2, _, _⟩ :=
    selectWinner_spec gX gY (gX a) (gY a) (lookaheadAvg gX gY n tp b).1
      (lookaheadAvg gX gY n tp b).2 hlt
  exact ⟨w1, w2⟩

include h3 hn in
/-- The emitted winners, together with the trailing `lastIndex`, form a
strictly increasing chain above the current anchor, and every winner is an
interior index. -/
lemma lttbLoopAux_chain :
    ∀ (r b a : ℕ), b + r = tp - 2 → a < rsNat n tp b →
      List.Chain' (· < ·) (a :: (lttbLoopAux gX gY n tp a b r ++ [n - 1])) ∧
      ∀ w ∈ lttbLoopAux gX gY n tp a b r, w < n - 1 := by
  intro r
  induction r with
  | zero =>
    intro b a hb ha
    have hb' : b = tp - 2 := by omega
    subst hb'
    rw [rsNat_top h3 hn] at ha
    constructor
    · simp [lttbLoopAux, List.chain'_cons, ha]
    · intro w hw
      simp [lttbLoopAux] at hw
  | succ r ih =>
    intro b a hb ha
    have hblt : b < tp - 2 := by omega
    obtain ⟨hw1, hw2⟩ := bucketWinner_bounds gX gY h3 hn hblt a
    have haw : a < bucketWinner gX gY n tp a b := lt_of_lt_of_le ha hw1
    have hwnext : bucketWinner gX gY n tp a b < rsNat n tp (b + 1) :=
      lt_of_lt_of_le hw2 (min_le_left _ _)
    have hwlast : bucketWinner gX gY n tp a b < n - 1 :=
      lt_of_lt_of_le hw2 (min_le_right _ _)
    obtain ⟨ihc, ihb⟩ := ih (b + 1) (bucketWinner gX gY n tp a b) (by omega) hwnext
    constructor
    · simp only [lttbLoopAux, List.cons_append]
      exact List.chain'_cons.mpr ⟨haw, ihc⟩
    · intro w hw
      simp only [lttbLoopAux, List.mem_cons] at hw
      rcases hw with rfl | hw
      · exact hwlast
      · exact ihb w hw

end LoopChain

/-! ### The shared index computation -/

lemma lttbIndicesCore_length (gX gY : ℕ → ℚ) (n : ℕ) (tp : ℤ) :
    (lttbIndicesCore gX gY n tp).length = min tp.toNat n := by
  unfold lttbIndicesCore
  split_ifs with h1 h2 h3 h4 h5
  · simp only [List.length_nil]
    omega
  · simp only [List.length_cons, List.length_nil]
    omega
  · simp only [List.length_cons, List.length_nil]
    omega
  · simp only [List.length_cons, List.length_nil]
    omega
  · simp only [List.length_range]
    omega
  · simp only [List.length_cons, List.length_append, List.length_nil,
      lttbLoopAux_length]
    omega

lemma lttbIndicesCore_chain (gX gY : ℕ → ℚ) (n : ℕ) (tp : ℤ) :
    List.Chain' (· < ·) (lttbIndicesCore gX gY n tp) := by
  unfold lttbIndicesCore
  split_ifs with h1 h2 h3 h4 h5
  · simp
  · simp
  · simp only [List.chain'_cons, List.chain'_singleton, and_true]
    omega
  · simp
  · exact (List.pairwise_lt_range n).chain'
  · have h3n : 3 ≤ tp.toNat := by omega
    have hnn : tp.toNat < n := by omega
    have h0 : 0 < rsNat n tp.toNat 0 := Nat.succ_pos _
    exact (lttbLoopAux_chain gX gY h3n hnn (tp.toNat - 2) 0 0 (by omega) h0).1

lemma lttbIndicesCore_mem_lt (gX gY : ℕ → ℚ) {n : ℕ} (tp : ℤ) :
    ∀ x ∈ lttbIndicesCore gX gY n tp, x < n := by
  unfold lttbIndicesCore
  split_ifs with h1 h2 h3 h4 h5
  · simp
  · simp only [List.mem_cons, List.not_mem_nil, or_false]
    omega
  · intro x hx
    simp only [List.mem_cons, List.not_mem_nil, or_false] at hx
    omega
  · intro x hx
    simp only [List.mem_cons, List.not_mem_nil, or_false] at hx
    omega
  · intro x hx
    exact List.mem_range.mp hx
  · intro x hx
    have h3n : 3 ≤ tp.toNat := by omega
    have hnn : tp.toNat < n := by omega
    have h0 : 0 < rsNat n tp.toNat 0 := Nat.succ_pos _
    have hloop := (lttbLoopAux_chain gX gY h3n hnn (tp.toNat - 2) 0 0 (by omega) h0).2
    simp only [List.mem_cons, List.mem_append, List.not_mem_nil, or_false] at hx
    rcases hx with rfl | hx | rfl
    · omega
    · exact lt_trans (hloop x hx) (by omega)
    · omega

lemma lttbIndicesCore_head_last (gX gY : ℕ → ℚ) {n : ℕ} {tp : ℤ}
    (h2 : 2 ≤ (lttbIndicesCore gX gY n tp).length) :
    (lttbIndicesCore gX gY n tp).getD 0 0 = 0 ∧
    (lttbIndicesCore gX gY n tp).getD ((lttbIndicesCore gX gY n tp).length - 1) 0 = n - 1 := by
  have hlen := lttbIndicesCore_length gX gY n tp
  revert h2
  unfold lttbIndicesCore
  unfold lttbIndicesCore at hlen
  split_ifs with h1 hcase2 hcase3 hcase4 hcase5 <;> intro h2
  · simp at h2
  · simp at h2
  · exact ⟨rfl, rfl⟩
  · simp at h2
  · constructor
    · rw [List.getD_eq_getElem _ _ (by simp; omega), List.getElem_range]
    · simp only [List.length_range]
      rw [List.getD_eq_getElem _ _ (by simp; omega), List.getElem_range]
  · constructor
    · rfl
    · simp only [List.length_cons, List.length_append, List.length_nil,
        lttbLoopAux_length, Nat.add_sub_cancel]
      have hlen2 : tp.toNat - 2 + 1 - 1 = tp.toNat - 2 := by omega
      simp only [List.getD_cons_succ]
      have := getD_append_last (lttbLoopAux gX gY n tp.toNat 0 0 (tp.toNat - 2)) (n - 1) 0
      rw [lttbLoopAux_length] at this
      exact this

/-! ### Branch equations and observation bridges for `lttbSample` -/

lemma lttbSample_interleaved_guard {data : List ℚ} {tc : ℚ}
    (hg : ⌊tc⌋ ≤ 0 ∨ data.length / 2 = 0) :
    lttbSample (.interleaved data) tc = .interleaved [] := by
  unfold lttbSample
  simp only
  rw [if_pos hg]

lemma lttbSample_interleaved_pass {data : List ℚ} {tc : ℚ}
    (hg : ¬(⌊tc⌋ ≤ 0 ∨ data.length / 2 = 0))
    (hp : ((data.length / 2 : ℕ) : ℤ) ≤ ⌊tc⌋) :
    lttbSample (.interleaved data) tc = .interleaved data := by
  unfold lttbSample
  simp only
  rw [if_neg hg, if_pos hp]

lemma lttbSample_interleaved_main {data : List ℚ} {tc : ℚ}
    (hg : ¬(⌊tc⌋ ≤ 0 ∨ data.length / 2 = 0))
    (hp : ¬((data.length / 2 : ℕ) : ℤ) ≤ ⌊tc⌋) :
    lttbSample (.interleaved data) tc =
      .interleaved ((lttbIndicesForInterleavedXY data ⌊tc⌋).flatMap
        fun idx => [data.getD (idx * 2) 0, data.getD (idx * 2 + 1) 0]) := by
  unfold lttbSample
  simp only
  rw [if_neg hg, if_neg hp]

lemma lttbSample_points_guard {data : List DataPoint} {tc : ℚ}
    (hg : ⌊tc⌋ ≤ 0 ∨ data.length = 0) :
    lttbSample (.points data) tc = .points [] := by
  unfold lttbSample
  simp only
  rw [if_pos hg]

lemma lttbSample_points_pass {data : List DataPoint} {tc : ℚ}
    (hg : ¬(⌊tc⌋ ≤ 0 ∨ data.length = 0))
    (hp : ((data.length : ℕ) : ℤ) ≤ ⌊tc⌋) :
    lttbSample (.points data) tc = .points data := by
  unfold lttbSample
  simp only
  rw [if_neg hg, if_pos hp]

lemma lttbSample_points_main {data : List DataPoint} {tc : ℚ}
    (hg : ¬(⌊tc⌋ ≤ 0 ∨ data.length = 0))
    (hp : ¬((data.length : ℕ) : ℤ) ≤ ⌊tc⌋) :
    lttbSample (.points data) tc =
      .points ((lttbIndicesForDataPoints data ⌊tc⌋).map
        fun idx => data.getD idx (.tuple 0 0)) := by
  unfold lttbSample
  simp only
  rw [if_neg hg, if_neg hp]

lemma numPoints_interleaved_flat (data : List ℚ) (l : List ℕ) :
    (SampleInput.interleaved (l.flatMap
      fun idx => [data.getD (idx * 2) 0, data.getD (idx * 2 + 1) 0])).numPoints
      = l.length := by
  simp only [SampleInput.numPoints, length_flatMap_pair]
  omega

lemma pointAt_interleaved_flat (data : List ℚ) (l : List ℕ) {i : ℕ}
    (hi : i < l.length) :
    (SampleInput.interleaved (l.flatMap
      fun idx => [data.getD (idx * 2) 0, data.getD (idx * 2 + 1) 0])).pointAt i
      = SampleInput.pointAt (.interleaved data) (l.getD i 0) := by
  simp only [SampleInput.pointAt]
  rw [getD_flatMap_pair_fst _ _ 0 l i hi, getD_flatMap_pair_snd _ _ 0 l i hi]

lemma pointAt_points_map (data : List DataPoint) (l : List ℕ) {i : ℕ}
    (hi : i < l.length) :
    (SampleInput.points (l.map fun idx => data.getD idx (.tuple 0 0))).pointAt i
      = SampleInput.pointAt (.points data) (l.getD i 0) := by
  simp only [SampleInput.pointAt]
  rw [getD_map_of_lt _ l i _ hi]

/-! ### Claims -/

lemma lttbSample_numPoints_eq (input : SampleInput) (targetCount : ℚ) :
    (lttbSample input targetCount).numPoints =
      min (⌊targetCount⌋.toNat) input.numPoints := by
  cases input with
  | interleaved data =>
    by_cases hg : ⌊targetCount⌋ ≤ 0 ∨ data.length / 2 = 0
    · rw [lttbSample_interleaved_guard hg]
      simp only [SampleInput.numPoints, List.length_nil]
      omega
    · by_cases hp : ((data.length / 2 : ℕ) : ℤ) ≤ ⌊targetCount⌋
      · rw [lttbSample_interleaved_pass hg hp]
        simp only [SampleInput.numPoints]
        omega
      · rw [lttbSample_interleaved_main hg hp]
        rw [numPoints_interleaved_flat]
        unfold lttbIndicesForInterleavedXY
        rw [lttbIndicesCore_length]
        rfl
  | points data =>
    by_cases hg : ⌊targetCount⌋ ≤ 0 ∨ data.length = 0
    · rw [lttbSample_points_guard hg]
      simp only [SampleInput.numPoints, List.length_nil]
      omega
    · by_cases hp : ((data.length : ℕ) : ℤ) ≤ ⌊targetCount⌋
      · rw [lttbSample_points_pass hg hp]
        simp only [SampleInput.numPoints]
        omega
      · rw [lttbSample_points_main hg hp]
        simp only [SampleInput.numPoints, List.length_map]
        unfold lttbIndicesForDataPoints
        rw [lttbIndicesCore_length]

/-- C1: for every input and every `targetCount`, the output of `sample`
holds at most `min(⌊targetCount⌋, N)` points (lengths are naturals, so a
negative floored target is clamped to `0` by `Int.toNat`), and whenever
`⌊targetCount⌋ ≥ 1` the output holds exactly `min(⌊targetCount⌋, N)`
points. -/
theorem C1_sample_length (input : SampleInput) (targetCount : ℚ) :
    (lttbSample input targetCount).numPoints ≤
      min (⌊targetCount⌋.toNat) input.numPoints ∧
    (1 ≤ ⌊targetCount⌋ →
      (lttbSample input targetCount).numPoints =
        min (⌊targetCount⌋.toNat) input.numPoints) :=
  ⟨le_of_eq (lttbSample_numPoints_eq input targetCount),
   fun _ => lttbSample_numPoints_eq input targetCount⟩

/-- C1 witness: a 4-point record array sampled at `targetCount = 2` has
exactly `min 2 4 = 2` points. -/
theorem C1_sample_length_witness :
    (lttbSample (SampleInput.points [.record 0 0, .record 1 5, .record 2 1,
      .record 3 4]) 2).numPoints =
      min ((⌊(2 : ℚ)⌋).toNat) (SampleInput.points [.record 0 0, .record 1 5,
        .record 2 1, .record 3 4]).numPoints :=
  (C1_sample_length (SampleInput.points [.record 0 0, .record 1 5, .record 2 1,
    .record 3 4]) 2).2 (by norm_num)

/-- C4: whenever the input is non-empty and `N ≤ ⌊targetCount⌋`, `sample`
returns its input unchanged (the zero-copy passthrough). -/
theorem C4_identity_passthrough (input : SampleInput) (targetCount : ℚ)
    (hne : 1 ≤ input.numPoints)
    (hle : (input.numPoints : ℤ) ≤ ⌊targetCount⌋) :
    lttbSample input targetCount = input := by
  cases input with
  | interleaved data =>
    simp only [SampleInput.numPoints] at hne hle
    exact lttbSample_interleaved_pass (by omega) hle
  | points data =>
    simp only [SampleInput.numPoints] at hne hle
    exact lttbSample_points_pass (by omega) hle

/-- C4 witness: a 2-point interleaved buffer sampled at `targetCount = 5`
is returned unchanged. -/
theorem C4_identity_passthrough_witness :
    lttbSample (SampleInput.interleaved [0, 1, 2, 3]) 5 =
      SampleInput.interleaved [0, 1, 2, 3] :=
  C4_identity_passthrough (SampleInput.interleaved [0, 1, 2, 3]) 5
    (by norm_num [SampleInput.numPoints]) (by norm_num [SampleInput.numPoints])

/-- Whenever the output of `sample` holds at least two points, its first
point is the input point at index `0` and its last point is the input point
at index `N - 1`. -/
lemma lttbSample_endpoints (input : SampleInput) (targetCount : ℚ)
    (h2 : 2 ≤ (lttbSample input targetCount).numPoints) :
    (lttbSample input targetCount).pointAt 0 = input.pointAt 0 ∧
    (lttbSample input targetCount).pointAt
        ((lttbSample input targetCount).numPoints - 1) =
      input.pointAt (input.numPoints - 1) := by
  cases input with
  | interleaved data =>
    by_cases hg : ⌊targetCount⌋ ≤ 0 ∨ data.length / 2 = 0
    · rw [lttbSample_interleaved_guard hg] at h2 ⊢
      simp [SampleInput.numPoints] at h2
    · by_cases hp : ((data.length / 2 : ℕ) : ℤ) ≤ ⌊targetCount⌋
      · rw [lttbSample_interleaved_pass hg hp]
        exact ⟨rfl, rfl⟩
      · rw [lttbSample_interleaved_main hg hp] at h2 ⊢
        rw [numPoints_interleaved_flat] at h2 ⊢
        obtain ⟨hhead, hlast⟩ := @lttbIndicesCore_head_last
          (fun i => data.getD (i * 2) 0) (fun i => data.getD (i * 2 + 1) 0)
          (data.length / 2) ⌊targetCount⌋ h2
        constructor
        · rw [pointAt_interleaved_flat data _ (by omega)]
          unfold lttbIndicesForInterleavedXY
          rw [hhead]
        · rw [pointAt_interleaved_flat data _ (by omega)]
          unfold lttbIndicesForInterleavedXY
          rw [hlast]
          rfl
  | points data =>
    by_cases hg : ⌊targetCount⌋ ≤ 0 ∨ data.length = 0
    · rw [lttbSample_points_guard hg] at h2 ⊢
      simp [SampleInput.numPoints] at h2
    · by_cases hp : ((data.length : ℕ) : ℤ) ≤ ⌊targetCount⌋
      · rw [lttbSample_points_pass hg hp]
        exact ⟨rfl, rfl⟩
      · rw [lttbSample_points_main hg hp] at h2 ⊢
        simp only [SampleInput.numPoints, List.length_map] at h2 ⊢
        obtain ⟨hhead, hlast⟩ := @lttbIndicesCore_head_last
          (fun i => pointX (data.getD i (.tuple 0 0)))
          (fun i => pointY (data.getD i (.tuple 0 0)))
          data.length ⌊targetCount⌋ h2
        constructor
        · rw [pointAt_points_map data _ (by omega)]
          unfold lttbIndicesForDataPoints
          rw [hhead]
        · rw [pointAt_points_map data _ (by omega)]
          unfold lttbIndicesForDataPoints
          rw [hlast]

/-- C2: whenever the output of `sample` holds at least two points, its first
point is the input point at index `0` and its last point is the input point
at index `N - 1`. -/
theorem C2_endpoints (input : SampleInput) (targetCount : ℚ)
    (h2 : 2 ≤ (lttbSample input targetCount).numPoints) :
    (lttbSample input targetCount).pointAt 0 = input.pointAt 0 ∧
    (lttbSample input targetCount).pointAt
        ((lttbSample input targetCount).numPoints - 1) =
      input.pointAt (input.numPoints - 1) :=
  lttbSample_endpoints input targetCount h2

/-- C2 witness: sampling a 5-point interleaved buffer at `targetCount = 3`
keeps the first and last input points at the ends of the output. -/
theorem C2_endpoints_witness :
    (lttbSample (SampleInput.interleaved [0, 7, 1, 1, 2, 5, 3, 1, 4, 9]) 3).pointAt 0 =
      (SampleInput.interleaved [0, 7, 1, 1, 2, 5, 3, 1, 4, 9]).pointAt 0 ∧
    (lttbSample (SampleInput.interleaved [0, 7, 1, 1, 2, 5, 3, 1, 4, 9]) 3).pointAt
        ((lttbSample (SampleInput.interleaved [0, 7, 1, 1, 2, 5, 3, 1, 4, 9]) 3).numPoints - 1) =
      (SampleInput.interleaved [0, 7, 1, 1, 2, 5, 3, 1, 4, 9]).pointAt
        ((SampleInput.interleaved [0, 7, 1, 1, 2, 5, 3, 1, 4, 9]).numPoints - 1) :=
  C2_endpoints (SampleInput.interleaved [0, 7, 1, 1, 2, 5, 3, 1, 4, 9]) 3
    (by with_unfolding_all decide)

lemma lttbIndicesCore_tp_one (gX gY : ℕ → ℚ) {n : ℕ} (h : n ≠ 0) :
    lttbIndicesCore gX gY n 1 = [0] := by
  unfold lttbIndicesCore
  rw [if_neg (by omega), if_pos rfl]

lemma lttbIndicesCore_tp_two (gX gY : ℕ → ℚ) {n : ℕ} (h : 2 ≤ n) :
    lttbIndicesCore gX gY n 2 = [0, n - 1] := by
  unfold lttbIndicesCore
  rw [if_neg (by omega), if_neg (by omega), if_pos rfl, if_pos h]

lemma lttbIndicesCore_head (gX gY : ℕ → ℚ) {n : ℕ} {tp : ℤ}
    (h1 : 1 ≤ (lttbIndicesCore gX gY n tp).length) :
    (lttbIndicesCore gX gY n tp).getD 0 0 = 0 := by
  revert h1
  unfold lttbIndicesCore
  split_ifs with hc1 hc2 hc3 hc4 hc5 <;> intro h1
  · simp at h1
  · rfl
  · rfl
  · rfl
  · rw [List.getD_eq_getElem _ _ (by simpa using h1), List.getElem_range]
  · rfl

/-- The first output point of `sample` is the input point at index `0`
whenever the output is non-empty. -/
lemma lttbSample_pointAt_zero (input : SampleInput) (targetCount : ℚ)
    (h1 : 1 ≤ (lttbSample input targetCount).numPoints) :
    (lttbSample input targetCount).pointAt 0 = input.pointAt 0 := by
  cases input with
  | interleaved data =>
    by_cases hg : ⌊targetCount⌋ ≤ 0 ∨ data.length / 2 = 0
    · rw [lttbSample_interleaved_guard hg] at h1
      simp [SampleInput.numPoints] at h1
    · by_cases hp : ((data.length / 2 : ℕ) : ℤ) ≤ ⌊targetCount⌋
      · rw [lttbSample_interleaved_pass hg hp]
      · rw [lttbSample_interleaved_main hg hp] at h1 ⊢
        rw [numPoints_interleaved_flat] at h1
        have hhead := @lttbIndicesCore_head
          (fun i => data.getD (i * 2) 0) (fun i => data.getD (i * 2 + 1) 0)
          (data.length / 2) ⌊targetCount⌋ h1
        rw [pointAt_interleaved_flat data _ (by omega)]
        unfold lttbIndicesForInterleavedXY
        rw [hhead]
  | points data =>
    by_cases hg : ⌊targetCount⌋ ≤ 0 ∨ data.length = 0
    · rw [lttbSample_points_guard hg] at h1
      simp [SampleInput.numPoints] at h1
    · by_cases hp : ((data.length : ℕ) : ℤ) ≤ ⌊targetCount⌋
      · rw [lttbSample_points_pass hg hp]
      · rw [lttbSample_points_main hg hp] at h1 ⊢
        simp only [SampleInput.numPoints, List.length_map] at h1
        have hhead := @lttbIndicesCore_head
          (fun i => pointX (data.getD i (.tuple 0 0)))
          (fun i => pointY (data.getD i (.tuple 0 0)))
          data.length ⌊targetCount⌋ h1
        rw [pointAt_points_map data _ (by omega)]
        unfold lttbIndicesForDataPoints
        rw [hhead]

/-- C5: the degenerate-size policy of `sample`: a non-positive floored
target or an empty input yields an empty output; `⌊targetCount⌋ = 1` on a
non-empty input yields exactly the point at index `0`; `⌊targetCount⌋ = 2`
on an input with at least two points yields exactly the points at indices
`0` and `N - 1`. -/
theorem C5_degenerate_policy (input : SampleInput) (targetCount : ℚ) :
    ((⌊targetCount⌋ ≤ 0 ∨ input.numPoints = 0) →
      (lttbSample input targetCount).numPoints = 0) ∧
    (⌊targetCount⌋ = 1 → 1 ≤ input.numPoints →
      (lttbSample input targetCount).numPoints = 1 ∧
      (lttbSample input targetCount).pointAt 0 = input.pointAt 0) ∧
    (⌊targetCount⌋ = 2 → 2 ≤ input.numPoints →
      (lttbSample input targetCount).numPoints = 2 ∧
      (lttbSample input targetCount).pointAt 0 = input.pointAt 0 ∧
      (lttbSample input targetCount).pointAt 1 =
        input.pointAt (input.numPoints - 1)) := by
  have hnum := lttbSample_numPoints_eq input targetCount
  refine ⟨?_, ?_, ?_⟩
  · intro h
    omega
  · intro h1 hn
    have hcnt : (lttbSample input targetCount).numPoints = 1 := by omega
    exact ⟨hcnt, lttbSample_pointAt_zero input targetCount (by omega)⟩
  · intro h2 hn
    have hcnt : (lttbSample input targetCount).numPoints = 2 := by omega
    obtain ⟨hhead, hlast⟩ := lttbSample_endpoints input targetCount (by omega)
    rw [hcnt] at hlast
    exact ⟨hcnt, hhead, hlast⟩

/-- C5 witness: the three degenerate policies evaluated on concrete inputs
(`targetCount = -1`, `1`, and `2` on a 3-point tuple array). -/
theorem C5_degenerate_policy_witness :
    (lttbSample (SampleInput.points [.tuple 0 4, .tuple 1 2, .tuple 2 6]) (-1)).numPoints = 0 ∧
    ((lttbSample (SampleInput.points [.tuple 0 4, .tuple 1 2, .tuple 2 6]) 1).numPoints = 1 ∧
      (lttbSample (SampleInput.points [.tuple 0 4, .tuple 1 2, .tuple 2 6]) 1).pointAt 0 =
        (SampleInput.points [.tuple 0 4, .tuple 1 2, .tuple 2 6]).pointAt 0) ∧
    ((lttbSample (SampleInput.points [.tuple 0 4, .tuple 1 2, .tuple 2 6]) 2).numPoints = 2 ∧
      (lttbSample (SampleInput.points [.tuple 0 4, .tuple 1 2, .tuple 2 6]) 2).pointAt 0 =
        (SampleInput.points [.tuple 0 4, .tuple 1 2, .tuple 2 6]).pointAt 0 ∧
      (lttbSample (SampleInput.points [.tuple 0 4, .tuple 1 2, .tuple 2 6]) 2).pointAt 1 =
        (SampleInput.points [.tuple 0 4, .tuple 1 2, .tuple 2 6]).pointAt
          ((SampleInput.points [.tuple 0 4, .tuple 1 2, .tuple 2 6]).numPoints - 1)) :=
  ⟨(C5_degenerate_policy (SampleInput.points [.tuple 0 4, .tuple 1 2, .tuple 2 6]) (-1)).1
      (by with_unfolding_all decide),
   (C5_degenerate_policy (SampleInput.points [.tuple 0 4, .tuple 1 2, .tuple 2 6]) 1).2.1
      (by with_unfolding_all decide) (by with_unfolding_all decide),
   (C5_degenerate_policy (SampleInput.points [.tuple 0 4, .tuple 1 2, .tuple 2 6]) 2).2.2
      (by with_unfolding_all decide) (by with_unfolding_all decide)⟩

lemma getD_mem_of_lt (l : List ℕ) {j : ℕ} (hj : j < l.length) :
    l.getD j 0 ∈ l := by
  rw [List.getD_eq_getElem _ _ hj]
  exact List.getElem_mem hj

/-- `sample` preserves non-decreasing x coordinates. -/
lemma lttbSample_xNonDec (input : SampleInput) (targetCount : ℚ)
    (hx : xNonDec input) : xNonDec (lttbSample input targetCount) := by
  cases input with
  | interleaved data =>
    by_cases hg : ⌊targetCount⌋ ≤ 0 ∨ data.length / 2 = 0
    · rw [lttbSample_interleaved_guard hg]
      intro j hj
      simp [SampleInput.numPoints] at hj
    · by_cases hp : ((data.length / 2 : ℕ) : ℤ) ≤ ⌊targetCount⌋
      · rw [lttbSample_interleaved_pass hg hp]
        exact hx
      · rw [lttbSample_interleaved_main hg hp]
        intro j hj i hi
        rw [numPoints_interleaved_flat] at hj
        rw [pointAt_interleaved_flat data _ hj,
          pointAt_interleaved_flat data _ (lt_of_le_of_lt hi hj)]
        set l := lttbIndicesForInterleavedXY data ⌊targetCount⌋ with hl
        have hchain : List.Chain' (· < ·) l := lttbIndicesCore_chain _ _ _ _
        have hab : l.getD i 0 ≤ l.getD j 0 := sorted_getD_mono hchain i j hi hj
        have hbmem : l.getD j 0 ∈ l := getD_mem_of_lt l hj
        have hbn : l.getD j 0 < data.length / 2 :=
          lttbIndicesCore_mem_lt _ _ _ (l.getD j 0) hbmem
        exact hx (l.getD j 0) hbn (l.getD i 0) hab
  | points data =>
    by_cases hg : ⌊targetCount⌋ ≤ 0 ∨ data.length = 0
    · rw [lttbSample_points_guard hg]
      intro j hj
      simp [SampleInput.numPoints] at hj
    · by_cases hp : ((data.length : ℕ) : ℤ) ≤ ⌊targetCount⌋
      · rw [lttbSample_points_pass hg hp]
        exact hx
      · rw [lttbSample_points_main hg hp]
        intro j hj i hi
        simp only [SampleInput.numPoints, List.length_map] at hj
        rw [pointAt_points_map data _ hj,
          pointAt_points_map data _ (lt_of_le_of_lt hi hj)]
        set l := lttbIndicesForDataPoints data ⌊targetCount⌋ with hl
        have hchain : List.Chain' (· < ·) l := lttbIndicesCore_chain _ _ _ _
        have hab : l.getD i 0 ≤ l.getD j 0 := sorted_getD_mono hchain i j hi hj
        have hbmem : l.getD j 0 ∈ l := getD_mem_of_lt l hj
        have hbn : l.getD j 0 < data.length :=
          lttbIndicesCore_mem_lt _ _ _ (l.getD j 0) hbmem
        exact hx (l.getD j 0) hbn (l.getD i 0) hab

/-- C3: the index sequences selected by both helpers are strictly
increasing, and consequently `sample` maps inputs with non-decreasing x
coordinates to outputs with non-decreasing x coordinates. -/
theorem C3_strictly_increasing :
    (∀ (data : List ℚ) (targetPoints : ℤ),
      List.Chain' (· < ·) (lttbIndicesForInterleavedXY data targetPoints)) ∧
    (∀ (data : List DataPoint) (targetPoints : ℤ),
      List.Chain' (· < ·) (lttbIndicesForDataPoints data targetPoints)) ∧
    (∀ (input : SampleInput) (targetCount : ℚ),
      xNonDec input → xNonDec (lttbSample input targetCount)) :=
  ⟨fun data tp => lttbIndicesCore_chain (fun i => data.getD (i * 2) 0)
      (fun i => data.getD (i * 2 + 1) 0) (data.length / 2) tp,
   fun data tp => lttbIndicesCore_chain (fun i => pointX (data.getD i (.tuple 0 0)))
      (fun i => pointY (data.getD i (.tuple 0 0))) data.length tp,
   lttbSample_xNonDec⟩

set_option maxRecDepth 40000 in
/-- C3 witness: a concrete 10-point interleaved buffer with increasing x,
sampled at `targetCount = 5`, has strictly increasing selected indices and
a non-decreasing output x sequence. -/
theorem C3_strictly_increasing_witness :
    List.Chain' (· < ·) (lttbIndicesForInterleavedXY
      [0, 0, 1, 5, 2, 1, 3, 4, 4, 2, 5, 3, 6, 0, 7, 2, 8, 1, 9, 4] 5) ∧
    xNonDec (lttbSample (SampleInput.interleaved
      [0, 0, 1, 5, 2, 1, 3, 4, 4, 2, 5, 3, 6, 0, 7, 2, 8, 1, 9, 4]) 5) :=
  ⟨C3_strictly_increasing.1
      [0, 0, 1, 5, 2, 1, 3, 4, 4, 2, 5, 3, 6, 0, 7, 2, 8, 1, 9, 4] 5,
   C3_strictly_increasing.2.2 (SampleInput.interleaved
      [0, 0, 1, 5, 2, 1, 3, 4, 4, 2, 5, 3, 6, 0, 7, 2, 8, 1, 9, 4]) 5
      (by unfold xNonDec; with_unfolding_all decide)⟩

/-- C6: the bucket winner is the lowest candidate index attaining the
maximal `|area2|` — it lies in the candidate range, its `|area2|` against
the anchor and the lookahead average dominates every candidate and strictly
dominates every lower candidate (so an equal-area later candidate never
displaces it, the comparison being strict `>`); `area2` is the stated
bilinear form; and each emitted winner becomes the anchor of the next
bucket. -/
theorem C6_winner_is_first_argmax :
    (∀ ax ay avgX avgY bx yb : ℚ, area2 ax ay avgX avgY bx yb =
      (ax - avgX) * (yb - ay) - (ax - bx) * (avgY - ay)) ∧
    (∀ (gX gY : ℕ → ℚ) (ax ay avgX avgY : ℚ) (rs re : ℕ), rs < re →
      rs ≤ selectWinner gX gY ax ay avgX avgY rs re ∧
      selectWinner gX gY ax ay avgX avgY rs re < re ∧
      (∀ j, rs ≤ j → j < re →
        |area2 ax ay avgX avgY (gX j) (gY j)| ≤
          |area2 ax ay avgX avgY (gX (selectWinner gX gY ax ay avgX avgY rs re))
            (gY (selectWinner gX gY ax ay avgX avgY rs re))|) ∧
      (∀ j, rs ≤ j → j < selectWinner gX gY ax ay avgX avgY rs re →
        |area2 ax ay avgX avgY (gX j) (gY j)| <
          |area2 ax ay avgX avgY (gX (selectWinner gX gY ax ay avgX avgY rs re))
            (gY (selectWinner gX gY ax ay avgX avgY rs re))|)) ∧
    (∀ (gX gY : ℕ → ℚ) (n tp a bucket r : ℕ),
      lttbLoopAux gX gY n tp a bucket (r + 1) =
        bucketWinner gX gY n tp a bucket ::
          lttbLoopAux gX gY n tp (bucketWinner gX gY n tp a bucket) (bucket + 1) r) :=
  ⟨fun _ _ _ _ _ _ => rfl,
   fun gX gY ax ay avgX avgY rs re h => by
    simpa only [absArea] using selectWinner_spec gX gY ax ay avgX avgY h,
   fun _ _ _ _ _ _ _ => rfl⟩

/-- C6 witness: the winner characterisation instantiated on the candidate
range `[1, 4)` with concrete accessors `x(i) = i`, `y(i) = i²` and a
concrete anchor and average. -/
theorem C6_winner_is_first_argmax_witness :
    1 ≤ selectWinner (fun i => (i : ℚ)) (fun i => (i : ℚ) * i) 0 0 2 3 1 4 ∧
    selectWinner (fun i => (i : ℚ)) (fun i => (i : ℚ) * i) 0 0 2 3 1 4 < 4 ∧
    (∀ j : ℕ, 1 ≤ j → j < 4 →
      |area2 0 0 2 3 ((j : ℚ)) ((j : ℚ) * j)| ≤
        |area2 0 0 2 3 ((selectWinner (fun i => (i : ℚ)) (fun i => (i : ℚ) * i) 0 0 2 3 1 4 : ℕ) : ℚ)
          (((selectWinner (fun i => (i : ℚ)) (fun i => (i : ℚ) * i) 0 0 2 3 1 4 : ℕ) : ℚ) *
            (selectWinner (fun i => (i : ℚ)) (fun i => (i : ℚ) * i) 0 0 2 3 1 4 : ℕ))|) ∧
    (∀ j : ℕ, 1 ≤ j → j < selectWinner (fun i => (i : ℚ)) (fun i => (i : ℚ) * i) 0 0 2 3 1 4 →
      |area2 0 0 2 3 ((j : ℚ)) ((j : ℚ) * j)| <
        |area2 0 0 2 3 ((selectWinner (fun i => (i : ℚ)) (fun i => (i : ℚ) * i) 0 0 2 3 1 4 : ℕ) : ℚ)
          (((selectWinner (fun i => (i : ℚ)) (fun i => (i : ℚ) * i) 0 0 2 3 1 4 : ℕ) : ℚ) *
            (selectWinner (fun i => (i : ℚ)) (fun i => (i : ℚ) * i) 0 0 2 3 1 4 : ℕ))|) :=
  C6_winner_is_first_argmax.2.1 (fun i => (i : ℚ)) (fun i => (i : ℚ) * i)
    0 0 2 3 1 4 (by norm_num)

/-- C7: the lookahead point of bucket `b` is the arithmetic mean of the
coordinates over `nextRange = [⌊bucketSize*(b+1)⌋+1,
min(⌊bucketSize*(b+2)⌋+1, N-1))`, and exactly the coordinates of input
point `N - 1` when that range is empty. -/
theorem C7_lookahead_average (gX gY : ℕ → ℚ) (n tp bucket : ℕ) :
    nextRange n tp bucket =
      ((⌊bucketSizeQ n tp * ((bucket : ℚ) + 1)⌋).toNat + 1,
        min ((⌊bucketSizeQ n tp * ((bucket : ℚ) + 2)⌋).toNat + 1) (n - 1)) ∧
    ((nextRange n tp bucket).1 < (nextRange n tp bucket).2 →
      lookaheadAvg gX gY n tp bucket =
        ((∑ i ∈ Finset.Ico (nextRange n tp bucket).1 (nextRange n tp bucket).2, gX i) /
            (((nextRange n tp bucket).2 - (nextRange n tp bucket).1 : ℕ) : ℚ),
         (∑ i ∈ Finset.Ico (nextRange n tp bucket).1 (nextRange n tp bucket).2, gY i) /
            (((nextRange n tp bucket).2 - (nextRange n tp bucket).1 : ℕ) : ℚ))) ∧
    ((nextRange n tp bucket).2 ≤ (nextRange n tp bucket).1 →
      lookaheadAvg gX gY n tp bucket = (gX (n - 1), gY (n - 1))) := by
  refine ⟨?_, ?_, ?_⟩
  · unfold nextRange rsNat
    have hc1 : ((bucket + 1 : ℕ) : ℚ) = (bucket : ℚ) + 1 := by push_cast; ring
    have hc2 : ((bucket + 2 : ℕ) : ℚ) = (bucket : ℚ) + 2 := by push_cast; ring
    rw [hc1, hc2]
  · intro h
    simp only [lookaheadAvg]
    rw [if_pos h]
    have he : (nextRange n tp bucket).1 +
        ((nextRange n tp bucket).2 - (nextRange n tp bucket).1) =
        (nextRange n tp bucket).2 := by omega
    have hsX := sum_map_range' gX
      ((nextRange n tp bucket).2 - (nextRange n tp bucket).1) (nextRange n tp bucket).1
    have hsY := sum_map_range' gY
      ((nextRange n tp bucket).2 - (nextRange n tp bucket).1) (nextRange n tp bucket).1
    rw [he] at hsX hsY
    rw [hsX, hsY]
  · intro h
    simp only [lookaheadAvg]
    rw [if_neg (not_lt.mpr h)]

set_option maxRecDepth 40000 in
/-- C7 witness: for `n = 10`, `targetPoints = 5` (`bucketSize = 8/3`),
bucket `0` has the nonempty lookahead range `[3, 6)` and its average is the
arithmetic mean over it, while bucket `2` has an empty lookahead range and
falls back to the final input point. -/
theorem C7_lookahead_average_witness :
    lookaheadAvg (fun i => (i : ℚ)) (fun i => 2 * (i : ℚ)) 10 5 0 =
      ((∑ i ∈ Finset.Ico (nextRange 10 5 0).1 (nextRange 10 5 0).2, ((i : ℚ))) /
          (((nextRange 10 5 0).2 - (nextRange 10 5 0).1 : ℕ) : ℚ),
       (∑ i ∈ Finset.Ico (nextRange 10 5 0).1 (nextRange 10 5 0).2, (2 * (i : ℚ))) /
          (((nextRange 10 5 0).2 - (nextRange 10 5 0).1 : ℕ) : ℚ)) ∧
    lookaheadAvg (fun i => (i : ℚ)) (fun i => 2 * (i : ℚ)) 10 5 2 =
      (((10 - 1 : ℕ) : ℚ), 2 * ((10 - 1 : ℕ) : ℚ)) :=
  ⟨(C7_lookahead_average (fun i => (i : ℚ)) (fun i => 2 * (i : ℚ)) 10 5 0).2.1
      (by with_unfolding_all decide),
   (C7_lookahead_average (fun i => (i : ℚ)) (fun i => 2 * (i : ℚ)) 10 5 2).2.2
      (by with_unfolding_all decide)⟩

/-- C8: outside the precondition `3 ≤ targetPoints ∧ targetPoints < N` the
result is fully determined by the degenerate-size guards (no bucket math),
and under the precondition every bucket's candidate range — after the
degenerate guard — starts at an interior index, holds at least one
candidate, and never reaches the last index `N - 1`. -/
theorem C8_bucket_precondition :
    (∀ (gX gY : ℕ → ℚ) (n : ℕ) (targetPoints : ℤ),
      ¬(3 ≤ targetPoints ∧ targetPoints < (n : ℤ)) →
      lttbIndicesCore gX gY n targetPoints = degenerateResult n targetPoints) ∧
    (∀ (n tp bucket : ℕ), 3 ≤ tp → tp < n → bucket < tp - 2 →
      1 ≤ (currentRange n tp bucket).1 ∧
      (currentRange n tp bucket).1 < (currentRange n tp bucket).2 ∧
      (currentRange n tp bucket).2 ≤ n - 1) := by
  constructor
  · intro gX gY n targetPoints hpre
    unfold lttbIndicesCore degenerateResult
    split_ifs with h1 h2 h3 h4 h5
    · rfl
    · rfl
    · rfl
    · rfl
    · rfl
    · exact absurd (by omega : 3 ≤ targetPoints ∧ targetPoints < (n : ℤ)) hpre
  · intro n tp bucket h3 hn _hb
    have h1 : 1 ≤ rsNat n tp bucket := Nat.le_add_left 1 _
    have h2 : 1 ≤ rsNat n tp (bucket + 1) := Nat.le_add_left 1 _
    have h4 : 4 ≤ n := by omega
    unfold currentRange
    simp only
    split_ifs with hgrd
    · refine ⟨by omega, by omega, by omega⟩
    · push_neg at hgrd
      refine ⟨h1, hgrd, min_le_right _ _⟩

set_option maxRecDepth 40000 in
/-- C8 witness: `targetPoints = 2` on a 5-point input resolves through the
guards alone, and for `n = 10`, `targetPoints = 5` the first bucket's
candidate range is nonempty and stays below the last index `9`. -/
theorem C8_bucket_precondition_witness :
    lttbIndicesCore (fun i => (i : ℚ)) (fun i => (i : ℚ)) 5 2 =
      degenerateResult 5 2 ∧
    (1 ≤ (currentRange 10 5 0).1 ∧
      (currentRange 10 5 0).1 < (currentRange 10 5 0).2 ∧
      (currentRange 10 5 0).2 ≤ 10 - 1) :=
  ⟨C8_bucket_precondition.1 (fun i => (i : ℚ)) (fun i => (i : ℚ)) 5 2
      (by omega),
   C8_bucket_precondition.2 10 5 0 (by omega) (by omega) (by omega)⟩

lemma getD_map_general {β α : Type} (g : β → α) (l : List β) (i : ℕ) (d : α)
    (d0 : β) (h : i < l.length) : (l.map g).getD i d = g (l.getD i d0) := by
  rw [List.getD_eq_getElem _ _ (by simpa using h), List.getD_eq_getElem _ _ h,
    List.getElem_map]

/-- C10: for one logical point sequence, the index sequences computed from
the interleaved flat encoding, the positional-tuple encoding and the
named-field record encoding all agree. -/
theorem C10_encodings_agree (ps : List (ℚ × ℚ)) (targetPoints : ℤ) :
    lttbIndicesForInterleavedXY (ps.flatMap fun p => [p.1, p.2]) targetPoints =
      lttbIndicesForDataPoints (ps.map fun p => DataPoint.tuple p.1 p.2) targetPoints ∧
    lttbIndicesForDataPoints (ps.map fun p => DataPoint.tuple p.1 p.2) targetPoints =
      lttbIndicesForDataPoints (ps.map fun p => DataPoint.record p.1 p.2) targetPoints := by
  have hlen : (ps.flatMap fun p => [p.1, p.2]).length / 2 = ps.length := by
    rw [length_flatMap_pair]
    omega
  have hX1 : (fun i => (ps.flatMap fun p => [p.1, p.2]).getD (i * 2) 0) =
      fun i => pointX ((ps.map fun p => DataPoint.tuple p.1 p.2).getD i (.tuple 0 0)) := by
    funext i
    by_cases hi : i < ps.length
    · rw [getD_flatMap_pair_fst _ _ ((0 : ℚ), (0 : ℚ)) ps i hi,
        getD_map_general _ ps i _ ((0 : ℚ), (0 : ℚ)) hi]
      rfl
    · rw [List.getD_eq_default _ _ (by rw [length_flatMap_pair]; omega),
        List.getD_eq_default _ _ (by simp only [List.length_map]; omega)]
      rfl
  have hY1 : (fun i => (ps.flatMap fun p => [p.1, p.2]).getD (i * 2 + 1) 0) =
      fun i => pointY ((ps.map fun p => DataPoint.tuple p.1 p.2).getD i (.tuple 0 0)) := by
    funext i
    by_cases hi : i < ps.length
    · rw [getD_flatMap_pair_snd _ _ ((0 : ℚ), (0 : ℚ)) ps i hi,
        getD_map_general _ ps i _ ((0 : ℚ), (0 : ℚ)) hi]
      rfl
    · rw [List.getD_eq_default _ _ (by rw [length_flatMap_pair]; omega),
        List.getD_eq_default _ _ (by simp only [List.length_map]; omega)]
      rfl
  have hX2 : (fun i => pointX ((ps.map fun p => DataPoint.tuple p.1 p.2).getD i (.tuple 0 0))) =
      fun i => pointX ((ps.map fun p => DataPoint.record p.1 p.2).getD i (.tuple 0 0)) := by
    funext i
    by_cases hi : i < ps.length
    · rw [getD_map_general _ ps i _ ((0 : ℚ), (0 : ℚ)) hi,
        getD_map_general _ ps i _ ((0 : ℚ), (0 : ℚ)) hi]
      rfl
    · rw [List.getD_eq_default _ _ (by simp only [List.length_map]; omega),
        List.getD_eq_default _ _ (by simp only [List.length_map]; omega)]
  have hY2 : (fun i => pointY ((ps.map fun p => DataPoint.tuple p.1 p.2).getD i (.tuple 0 0))) =
      fun i => pointY ((ps.map fun p => DataPoint.record p.1 p.2).getD i (.tuple 0 0)) := by
    funext i
    by_cases hi : i < ps.length
    · rw [getD_map_general _ ps i _ ((0 : ℚ), (0 : ℚ)) hi,
        getD_map_general _ ps i _ ((0 : ℚ), (0 : ℚ)) hi]
      rfl
    · rw [List.getD_eq_default _ _ (by simp only [List.length_map]; omega),
        List.getD_eq_default _ _ (by simp only [List.length_map]; omega)]
  constructor
  · unfold lttbIndicesForInterleavedXY lttbIndicesForDataPoints
    rw [hlen, List.length_map, hX1, hY1]
  · unfold lttbIndicesForDataPoints
    rw [List.length_map, List.length_map, hX2, hY2]

lemma foldl_nan_id (area : ℕ → EF) :
    ∀ (l : List ℕ) (acc : EF × ℕ), (∀ i ∈ l, area i = EF.nan) →
      l.foldl (fun acc i =>
        let a2 := area i
        let absA2 := if a2.lt (EF.val 0) then a2.neg else a2
        if acc.1.lt absA2 then (absA2, i) else acc) acc = acc := by
  intro l
  induction l with
  | nil => intro acc _; rfl
  | cons i t ih =>
    intro acc hmem
    have hi : area i = EF.nan := hmem i (List.mem_cons_self i t)
    obtain ⟨m, w⟩ := acc
    rw [List.foldl_cons]
    have hstep : (let a2 := area i
        let absA2 := if a2.lt (EF.val 0) then a2.neg else a2
        if (m, w).1.lt absA2 then (absA2, i) else (m, w)) = (m, w) := by
      simp only [hi]
      cases m <;> rfl
    rw [hstep]
    exact ih (m, w) (fun j hj => hmem j (List.mem_cons_of_mem _ hj))

/-- C9 counterexample: on the candidate range `[0, 2)` with the first
candidate's area NaN and the second candidate's area `+∞` — both non-finite
— the IEEE comparison `+∞ > -1` fires, so the winner is index `1`, not the
bucket's initial default index `0`. -/
theorem C9_nonfinite_counterexample :
    ((fun i => if i = 0 then EF.nan else EF.inf) 0).nonFinite ∧
    ((fun i => if i = 0 then EF.nan else EF.inf) 1).nonFinite ∧
    selectWinnerEF (fun i => if i = 0 then EF.nan else EF.inf) 0 2 ≠ 0 := by
  refine ⟨Or.inl rfl, Or.inr (Or.inl rfl), ?_⟩
  decide

/-- C9 (amended): in a bucket in which every candidate's computed triangle
area is NaN (rather than merely non-finite), no IEEE comparison against the
running maximum ever succeeds, so the bucket's initial default — the start
index of `currentRange` — is retained as the selected index.  A non-finite
but infinite area can still win the comparison. -/
theorem C9_all_nan_keeps_default (area : ℕ → EF) (rs re : ℕ)
    (h : ∀ i, rs ≤ i → i < re → area i = EF.nan) :
    selectWinnerEF area rs re = rs := by
  unfold selectWinnerEF
  have hmem : ∀ i ∈ List.range' rs (re - rs), area i = EF.nan := by
    intro i hi
    obtain ⟨h1, h2⟩ := List.mem_range'_1.mp hi
    exact h i h1 (by omega)
  rw [foldl_nan_id area (List.range' rs (re - rs)) (EF.val (-1), rs) hmem]

/-- C9 witness: with every candidate area NaN on the range `[1, 3)`, the
selected index is the range start `1`. -/
theorem C9_all_nan_keeps_default_witness :
    selectWinnerEF (fun _ => EF.nan) 1 3 = 1 :=
  C9_all_nan_keeps_default (fun _ => EF.nan) 1 3 (fun _ _ _ => rfl)
